import Mathlib

/-!
Verification of the `aesdsocket` TCP echo-append server
(`src/server/aesdsocket.c`) against its natural-language specification.

The embedding models the per-connection receive loop of `main`
(lines 330-371), the helper `sendall` (lines 125-155), the helper
`send_file_back` (lines 171-222), and the cancellation flag `exit_flag`
(line 38 and the signal handler, lines 89-110).

Bytes are modelled as `Nat`; the newline delimiter `'\n'` is byte 10.
-/

namespace AesdSocket

/-- A byte of the client stream or of the data file. -/
abbrev Byte := Nat

/-- The newline delimiter `'\n'` (line 347: `memchr(receive_buffer, '\n', ...)`). -/
def NL : Byte := 10

/-- `#define MAX_RECV_BUF_LEN 4096` (line 27): capacity of `receive_buffer`
(the array itself holds `MAX_RECV_BUF_LEN + 1` bytes for the NUL, line 305). -/
def MAX_RECV_BUF_LEN : Nat := 4096

/-- Index of the first occurrence of `NL` in a byte list, mirroring
`memchr(receive_buffer, '\n', total_received)` at line 347 (`none` when the
pending bytes hold no newline). -/
def memchrIdx : List Byte → Option Nat
  | [] => none
  | b :: rest => if b = NL then some 0 else (memchrIdx rest).map (· + 1)

/-- Observable per-connection events of the error-free receive loop:
`recordAppend l` is the `fwrite` of a completed newline-terminated line
(line 349); `satAppend b` is the forced buffer-saturation `fwrite` (line 359);
`tailAppend b` is the `fwrite` of the unterminated remainder after the peer
closes (line 365); `echo c` is `send_file_back` transmitting the full file
content `c` (lines 350 and 366). -/
inductive Event where
  | recordAppend (line : List Byte)
  | satAppend (bytes : List Byte)
  | tailAppend (bytes : List Byte)
  | echo (content : List Byte)
deriving DecidableEq, Repr

/-- State of one connection in the error-free model: `file` is the content of
`/var/tmp/aesdsocketdata` (the `FILE *fp` opened in append mode, line 324),
`buf` is `receive_buffer[0 .. total_received)` (lines 305, 331), and `trace`
records the events so far. -/
structure ConnState where
  file : List Byte
  buf : List Byte
  trace : List Event
deriving DecidableEq, Repr

/-- The inner line-extraction loop of `main` (lines 347-357), error-free path:
while `memchr` finds a newline, `fwrite` the line `receive_buffer[0..line_len)`
to the file, echo the whole file back (`send_file_back`, which appends the
events `recordAppend`/`echo`), then `memmove` the remainder to the front.
The structural fuel argument is instantiated with the number of newlines in
the buffer, which is exactly the number of iterations the `while` loop
performs (each iteration removes the first newline): see
`processLinesAux_fuel_exact`. -/
def processLinesAux : Nat → List Byte → List Byte → List Event →
    List Byte × List Byte × List Event
  | 0, file, buf, tr => (file, buf, tr)
  | fuel + 1, file, buf, tr =>
    match memchrIdx buf with
    | none => (file, buf, tr)
    | some i =>
      let line := buf.take (i + 1)
      processLinesAux fuel (file ++ line) (buf.drop (i + 1))
        (tr ++ [Event.recordAppend line, Event.echo (file ++ line)])

/-- The `while ((nl = memchr(...)))` loop of lines 347-357 (error-free path). -/
def processLines (file buf : List Byte) (tr : List Event) :
    List Byte × List Byte × List Event :=
  processLinesAux (buf.count NL) file buf tr

/-- One iteration of the receive loop body (lines 340-362): the received
`chunk` lands at `receive_buffer + total_received`; the line loop runs;
then, if `total_received >= MAX_RECV_BUF_LEN`, the whole pending buffer is
written out with no echo and `total_received` is reset (lines 358-362). -/
def feedChunk (st : ConnState) (chunk : List Byte) : ConnState :=
  let buf0 := st.buf ++ chunk
  match processLines st.file buf0 st.trace with
  | (file, buf, tr) =>
    if MAX_RECV_BUF_LEN ≤ buf.length then
      ⟨file ++ buf, [], tr ++ [Event.satAppend buf]⟩
    else
      ⟨file, buf, tr⟩

/-- The receive loop of lines 340-363 over a whole connection: each element of
`chunks` is the byte string returned by one successful `recv` call. -/
def runChunks (st : ConnState) (chunks : List (List Byte)) : ConnState :=
  chunks.foldl feedChunk st

/-- Lines 364-371: after `recv` returns `<= 0`, a nonempty unterminated
remainder is written to the file and the whole file is echoed back. -/
def finishConn (st : ConnState) : ConnState :=
  if 0 < st.buf.length then
    ⟨st.file ++ st.buf, [],
      st.trace ++ [Event.tailAppend st.buf, Event.echo (st.file ++ st.buf)]⟩
  else st

/-- A full connection (lines 330-371, error-free path) starting from file
content `file0` and an empty receive buffer. -/
def runConn (file0 : List Byte) (chunks : List (List Byte)) : ConnState :=
  finishConn (runChunks ⟨file0, [], []⟩ chunks)

/-- The echoed contents, in order, of a trace. -/
def echoesOf (tr : List Event) : List (List Byte) :=
  tr.filterMap fun e =>
    match e with
    | Event.echo c => some c
    | _ => none

/-- A single newline-terminated record as sent by a client in one `recv`:
nonempty, ends in `'\n'`, no interior newline, and small enough to be
returned by one `recv` call into the empty buffer (`recv` reads at most
`MAX_RECV_BUF_LEN - total_received` bytes, line 340). -/
def isRecord (r : List Byte) : Bool :=
  decide (r ≠ []) && decide (r.getLast? = some NL) && !decide (NL ∈ r.dropLast)
    && decide (r.length ≤ MAX_RECV_BUF_LEN)

/-- The events generated by a sequence of one-chunk records starting from
file content `file0`. -/
def recEvents (file0 : List Byte) : List (List Byte) → List Event
  | [] => []
  | r :: rs =>
    Event.recordAppend r :: Event.echo (file0 ++ r) :: recEvents (file0 ++ r) rs

/-- The states `⟨file, buf, trace⟩` observed at the top of each `recv` call
(line 340), i.e. the scan of `feedChunk` over the chunks. -/
def connStates (st : ConnState) : List (List Byte) → List ConnState
  | [] => [st]
  | c :: cs => st :: connStates (feedChunk st c) cs

/-- Validity of a chunk sequence with respect to the `recv` interface at
line 340: each `recv` returns a positive number of bytes, and at most the
requested `MAX_RECV_BUF_LEN - total_received`. -/
def chunksValid (st : ConnState) : List (List Byte) → Bool
  | [] => true
  | c :: cs =>
    (0 < c.length && st.buf.length + c.length ≤ MAX_RECV_BUF_LEN)
      && chunksValid (feedChunk st c) cs

end AesdSocket

namespace AesdSocket

/-- Result of one `send()` call (line 136): `err` models a negative return,
`ok n` models `n >= 0` bytes accepted. -/
inductive SendRes where
  | err
  | ok (n : Nat)
deriving DecidableEq, Repr

/-- The kernel guarantee on `send()`: each successful call accepts at most the
number of bytes requested, i.e. at most the bytes still unsent. -/
def oracleValid : List SendRes → Nat → Bool
  | [], _ => true
  | SendRes.err :: _, _ => true
  | SendRes.ok n :: rest, remaining => n ≤ remaining && oracleValid rest (remaining - n)

/-- The loop of `sendall` (lines 125-155): while `offset < len`, call `send`
on `buf + offset` for `len - offset` bytes; a negative result returns `-1`;
a zero result retries; a positive result `n` advances `offset` by `n`.
The first component collects the bytes actually handed to `send` calls that
accepted them, in order; the second is the return value (`none` when the
oracle of `send` results is exhausted before the loop finishes). -/
def sendallLoop (buf : List Byte) : List SendRes → Nat → List Byte × Option Int
  | [], offset =>
    if offset < buf.length then ([], none) else ([], some 0)
  | r :: rest, offset =>
    if offset < buf.length then
      match r with
      | SendRes.err => ([], some (-1))
      | SendRes.ok n =>
        if n = 0 then sendallLoop buf rest offset
        else
          match sendallLoop buf rest (offset + n) with
          | (txs, res) => ((buf.drop offset).take n ++ txs, res)
    else ([], some 0)

/-- `sendall(fd, buf, len)` (lines 125-155) with `offset` starting at 0. -/
def sendall (oracle : List SendRes) (buf : List Byte) : List Byte × Option Int :=
  sendallLoop buf oracle 0

end AesdSocket

namespace AesdSocket

/-- The storage stack seen by `send_file_back` (lines 171-222): `sbuf` is the
stdio buffer of `FILE *fp` not yet written to the kernel, `kernel` is file
data written to the kernel but not yet synced to storage, `synced` is data
durably on storage.  The logical file content is `synced ++ kernel ++ sbuf`. -/
structure Store where
  synced : List Byte
  kernel : List Byte
  sbuf : List Byte
deriving DecidableEq, Repr

/-- The logical content of the data file. -/
def Store.content (s : Store) : List Byte := s.synced ++ s.kernel ++ s.sbuf

/-- `fwrite(bytes, 1, len, fp)` (lines 349, 359, 365): appends to the stdio
buffer. -/
def fwriteStore (s : Store) (bytes : List Byte) : Store :=
  ⟨s.synced, s.kernel, s.sbuf ++ bytes⟩

/-- `fflush(fp)` (line 173): moves the stdio buffer into the kernel. -/
def fflushStore (s : Store) : Store :=
  ⟨s.synced, s.kernel ++ s.sbuf, []⟩

/-- `fsync(fileno(fp))` (line 179): moves kernel data onto storage. -/
def fsyncStore (s : Store) : Store :=
  ⟨s.synced ++ s.kernel, [], s.sbuf⟩

/-- `send_file_back` (lines 171-222), error-free path: `fflush`, `fsync`,
`rewind`, then the `fread`/`sendall` loop reads the file from offset 0 and
transmits all of it.  Returns the post state and the transmitted bytes,
which are read from the synced store. -/
def send_file_back (s : Store) : Store × List Byte :=
  let s1 := fflushStore s
  let s2 := fsyncStore s1
  (s2, s2.synced)

end AesdSocket

namespace AesdSocket

/-- `volatile sig_atomic_t exit_flag = 0` (line 38), modelled as a Boolean. -/
def exit_flag_init : Bool := false

/-- A step of the program as far as writes to `exit_flag` are concerned:
`signalStep` is one run of `signal_handler` for SIGINT or SIGTERM, which
executes `exit_flag = 1` (line 93); `otherStep` is any other program step —
no other statement in `aesdsocket.c` writes to `exit_flag`. -/
inductive PStep where
  | signalStep
  | otherStep
deriving DecidableEq, Repr

/-- Effect of one program step on `exit_flag`. -/
def exitFlagStep (f : Bool) : PStep → Bool
  | PStep.signalStep => true
  | PStep.otherStep => f

/-- Value of `exit_flag` after a sequence of program steps. -/
def exitFlagAfter (steps : List PStep) : Bool :=
  steps.foldl exitFlagStep exit_flag_init

/-- Guard of the accept loop, `while (!exit_flag)` (line 310). -/
def acceptLoopContinues (exit_flag : Bool) : Bool := !exit_flag

/-- Guard of the receive loop, `while ((msg_len = recv(...)) > 0)` (line 340):
given the flag in scope, the condition tests only `msg_len`. -/
def recvLoopContinues (exit_flag : Bool) (msg_len : Int) : Bool :=
  decide (0 < msg_len)

end AesdSocket

namespace AesdSocket

/-- Success or failure reported by an I/O call in the error-aware model. -/
inductive OpResult where
  | ok
  | fail
deriving DecidableEq, Repr

/-- Draw the next result from an environment oracle (an exhausted oracle
reports success). -/
def nextRes : List OpResult → OpResult × List OpResult
  | [] => (OpResult.ok, [])
  | r :: rest => (r, rest)

/-- Observable events of the error-aware connection model.  The `fwrite*`
events record the result *reported* by `fwrite`; `aesdsocket.c` discards that
return value at all three call sites (lines 349, 359, 365), so the result can
influence nothing but the event itself.  `echoOK`/`echoFail` are the result
of `send_file_back` for a completed record (line 350); `echoTailOK` /
`echoTailFail` are its result for the end-of-connection remainder (line 366),
where a failure executes `break` out of the accept loop (line 368). -/
inductive EEvent where
  | fwriteRec (line : List Byte) (res : OpResult)
  | echoOK (content : List Byte)
  | echoFail
  | fwriteSat (bytes : List Byte) (res : OpResult)
  | fwriteTail (bytes : List Byte) (res : OpResult)
  | echoTailOK (content : List Byte)
  | echoTailFail
deriving DecidableEq, Repr

/-- Connection state of the error-aware model: file content, pending receive
buffer, event list, and the two environment oracles (results of the future
`send_file_back` calls and of the future `fwrite` calls). -/
structure EConn where
  file : List Byte
  buf : List Byte
  events : List EEvent
  sends : List OpResult
  writes : List OpResult
deriving DecidableEq, Repr

/-- The inner line-extraction loop (lines 347-357) with failures: each
iteration performs the `fwrite` of the line (line 349; the reported result is
recorded but, as in the source, not examined) and then `send_file_back`
(line 350); when the latter fails the loop `break`s (line 352) *before* the
`memmove`, so the buffer is left uncompacted and still contains the line.
Fuel is the newline count of the buffer, an upper bound on the iterations. -/
def eProcessLines : Nat → EConn → EConn
  | 0, st => st
  | fuel + 1, st =>
    match memchrIdx st.buf with
    | none => st
    | some i =>
      let line := st.buf.take (i + 1)
      match nextRes st.writes with
      | (wr, ws) =>
        let file := st.file ++ line
        match nextRes st.sends with
        | (OpResult.ok, ss) =>
          eProcessLines fuel
            ⟨file, st.buf.drop (i + 1),
              st.events ++ [EEvent.fwriteRec line wr, EEvent.echoOK file], ss, ws⟩
        | (OpResult.fail, ss) =>
          ⟨file, st.buf,
            st.events ++ [EEvent.fwriteRec line wr, EEvent.echoFail], ss, ws⟩

/-- The saturation flush of lines 358-362 in the error-aware model: when
`total_received >= MAX_RECV_BUF_LEN`, `fwrite` the whole pending buffer
(result recorded but, as in the source, not examined), reset
`total_received`, `fflush` with ignored result, and produce no echo. -/
def satStep (st1 : EConn) : EConn :=
  if MAX_RECV_BUF_LEN ≤ st1.buf.length then
    match nextRes st1.writes with
    | (wr, ws) =>
      ⟨st1.file ++ st1.buf, [], st1.events ++ [EEvent.fwriteSat st1.buf wr],
        st1.sends, ws⟩
  else st1

/-- One receive-loop iteration (lines 340-362) in the error-aware model:
append the received chunk, run the line loop, then the saturation flush. -/
def eFeedChunk (st : EConn) (chunk : List Byte) : EConn :=
  satStep (eProcessLines ((st.buf ++ chunk).count NL)
    ⟨st.file, st.buf ++ chunk, st.events, st.sends, st.writes⟩)

/-- Lines 364-371 in the error-aware model: the trailing flush of a nonempty
unterminated remainder (`fwrite` then `send_file_back`).  The returned
Boolean is true exactly when the code executes the `break` of line 368,
which exits the *accept* loop `while (!exit_flag)` of line 310. -/
def eFinish (st : EConn) : EConn × Bool :=
  if 0 < st.buf.length then
    match nextRes st.writes with
    | (wr, ws) =>
      let file := st.file ++ st.buf
      match nextRes st.sends with
      | (OpResult.ok, ss) =>
        (⟨file, [], st.events ++ [EEvent.fwriteTail st.buf wr, EEvent.echoTailOK file],
          ss, ws⟩, false)
      | (OpResult.fail, ss) =>
        (⟨file, st.buf, st.events ++ [EEvent.fwriteTail st.buf wr, EEvent.echoTailFail],
          ss, ws⟩, true)
  else (st, false)

/-- The input of one connection: the chunks returned by successive `recv`
calls and the environment oracles for `send_file_back` and `fwrite`. -/
structure ConnInput where
  chunks : List (List Byte)
  sends : List OpResult
  writes : List OpResult
deriving DecidableEq, Repr

/-- A full connection in the error-aware model; the Boolean is true exactly
when the connection executed the accept-loop `break` of line 368. -/
def runEConn (file0 : List Byte) (c : ConnInput) : EConn × Bool :=
  eFinish ((c.chunks).foldl eFeedChunk ⟨file0, [], [], c.sends, c.writes⟩)

/-- The accept loop (lines 310-378) over a list of connections: the data file
persists across connections (it is only unlinked at startup and shutdown),
and the loop stops early when a connection executes the `break` of line 368.
Returns the final file content and the number of connections handled. -/
def serverLoop : List Byte → List ConnInput → List Byte × Nat
  | file, [] => (file, 0)
  | file, c :: cs =>
    match runEConn file c with
    | (st, true) => (st.file, 1)
    | (st, false) =>
      match serverLoop st.file cs with
      | (f, n) => (f, n + 1)

end AesdSocket

namespace AesdSocket

/-- Is this event an echo to the client? -/
def isEchoEv : Event → Bool
  | Event.echo _ => true
  | _ => false

/-- Is this event the append of a newline-terminated record? -/
def isRecordAppendEv : Event → Bool
  | Event.recordAppend _ => true
  | _ => false

/-- Is this event an append that the code follows with an echo (a
newline-terminated record append, or the end-of-connection remainder
append)? -/
def isEchoTriggerEv : Event → Bool
  | Event.recordAppend _ => true
  | Event.tailAppend _ => true
  | _ => false

/-- Chain check: every echo event is immediately preceded by an event
satisfying `p`; `prev` is the event preceding the list. -/
def echoChainAux (p : Event → Bool) : Event → List Event → Bool
  | _, [] => true
  | prev, e :: rest => (!(isEchoEv e) || p prev) && echoChainAux p e rest

/-- The last event of a list, or `a` when the list is empty. -/
def lastEv (a : Event) : List Event → Event
  | [] => a
  | e :: rest => lastEv e rest

/-- Every echo in the trace is immediately preceded by the append of a
newline-terminated record (the dummy head `satAppend []` makes a leading
echo fail the check). -/
def echoOnlyAfterRecord (evs : List Event) : Bool :=
  echoChainAux isRecordAppendEv (Event.satAppend []) evs

/-- Every echo in the trace is immediately preceded by a record append or by
the end-of-connection remainder append. -/
def echoOnlyAfterTrigger (evs : List Event) : Bool :=
  echoChainAux isEchoTriggerEv (Event.satAppend []) evs

/-- Is this event an `fwrite` that reported failure? -/
def isWriteFailEv : EEvent → Bool
  | EEvent.fwriteRec _ OpResult.fail => true
  | EEvent.fwriteSat _ OpResult.fail => true
  | EEvent.fwriteTail _ OpResult.fail => true
  | _ => false

/-- Is this event part of ordinary record processing (a record `fwrite` or a
successful record echo)? -/
def isProcessingEv : EEvent → Bool
  | EEvent.fwriteRec _ _ => true
  | EEvent.echoOK _ => true
  | _ => false

/-- No record-processing event occurs in the list. -/
def noProcessing : List EEvent → Bool
  | [] => true
  | e :: rest => !(isProcessingEv e) && noProcessing rest

/-- Formalisation of the claim that an append failure aborts the connection's
record processing: after any `fwrite` that reported failure, no further
record-processing event occurs. -/
def appendFailAborts : List EEvent → Bool
  | [] => true
  | e :: rest =>
    if isWriteFailEv e then noProcessing rest else appendFailAborts rest

/-- Erase the reported `fwrite` results from an event (the code never reads
them). -/
def eraseWriteRes : EEvent → EEvent
  | EEvent.fwriteRec b _ => EEvent.fwriteRec b OpResult.ok
  | EEvent.fwriteSat b _ => EEvent.fwriteSat b OpResult.ok
  | EEvent.fwriteTail b _ => EEvent.fwriteTail b OpResult.ok
  | e => e

/-- Two error-model states agree on everything the code can observe when the
`fwrite` oracles differ: file, buffer, pending `send_file_back` oracle, and
the events up to the reported `fwrite` results. -/
def WRel (a b : EConn) : Prop :=
  a.file = b.file ∧ a.buf = b.buf
    ∧ a.events.map eraseWriteRes = b.events.map eraseWriteRes ∧ a.sends = b.sends

end AesdSocket

namespace AesdSocket

theorem memchrIdx_of_not_mem {buf : List Byte} (h : NL ∉ buf) : memchrIdx buf = none := by
  induction buf with
  | nil => rfl
  | cons b rest ih =>
    simp only [List.mem_cons, not_or] at h
    have hb : ¬ b = NL := fun hh => h.1 hh.symm
    simp [memchrIdx, hb, ih h.2]

theorem memchrIdx_append_nl {s : List Byte} (h : NL ∉ s) :
    memchrIdx (s ++ [NL]) = some s.length := by
  induction s with
  | nil => simp [memchrIdx]
  | cons b rest ih =>
    simp only [List.mem_cons, not_or] at h
    have hb : ¬ b = NL := fun hh => h.1 hh.symm
    simp [memchrIdx, hb, ih h.2]

theorem processLinesAux_none (fuel : Nat) (file buf : List Byte) (tr : List Event)
    (h : memchrIdx buf = none) : processLinesAux fuel file buf tr = (file, buf, tr) := by
  cases fuel <;> simp [processLinesAux, h]

theorem processLinesAux_step (fuel : Nat) (file buf : List Byte) (tr : List Event)
    (i : Nat) (h : memchrIdx buf = some i) :
    processLinesAux (fuel + 1) file buf tr =
      processLinesAux fuel (file ++ buf.take (i + 1)) (buf.drop (i + 1))
        (tr ++ [Event.recordAppend (buf.take (i + 1)),
                Event.echo (file ++ buf.take (i + 1))]) := by
  simp [processLinesAux, h]

theorem processLines_no_nl (file buf : List Byte) (tr : List Event) (h : NL ∉ buf) :
    processLines file buf tr = (file, buf, tr) := by
  simp [processLines, processLinesAux_none, memchrIdx_of_not_mem h]

theorem processLines_record (file : List Byte) (tr : List Event) (s : List Byte)
    (hs : NL ∉ s) :
    processLines file (s ++ [NL]) tr =
      (file ++ (s ++ [NL]), [],
        tr ++ [Event.recordAppend (s ++ [NL]), Event.echo (file ++ (s ++ [NL]))]) := by
  have hc : (s ++ [NL]).count NL = 1 := by
    simp [List.count_append, List.count_eq_zero.mpr hs]
  have ht : (s ++ [NL]).take (s.length + 1) = s ++ [NL] := by
    have hl : (s ++ [NL]).length = s.length + 1 := by simp
    rw [← hl, List.take_length]
  have hd : (s ++ [NL]).drop (s.length + 1) = [] := by
    have hl : (s ++ [NL]).length = s.length + 1 := by simp
    rw [← hl, List.drop_length]
  rw [processLines, hc]
  rw [show (1 : Nat) = 0 + 1 from rfl,
      processLinesAux_step 0 file (s ++ [NL]) tr s.length (memchrIdx_append_nl hs),
      ht, hd]
  rfl

theorem feedChunk_completes (file b c : List Byte) (tr : List Event) (s : List Byte)
    (hbc : b ++ c = s ++ [NL]) (hs : NL ∉ s) :
    feedChunk ⟨file, b, tr⟩ c =
      ⟨file ++ (s ++ [NL]), [],
        tr ++ [Event.recordAppend (s ++ [NL]), Event.echo (file ++ (s ++ [NL]))]⟩ := by
  rw [feedChunk]
  simp only [hbc, processLines_record file tr s hs]
  simp [MAX_RECV_BUF_LEN]

theorem feedChunk_record (file : List Byte) (tr : List Event) (s : List Byte)
    (hs : NL ∉ s) :
    feedChunk ⟨file, [], tr⟩ (s ++ [NL]) =
      ⟨file ++ (s ++ [NL]), [],
        tr ++ [Event.recordAppend (s ++ [NL]), Event.echo (file ++ (s ++ [NL]))]⟩ :=
  feedChunk_completes file [] (s ++ [NL]) tr s (by simp) hs

theorem feedChunk_no_nl (file b c : List Byte) (tr : List Event)
    (h : NL ∉ b ++ c) (hlen : (b ++ c).length < MAX_RECV_BUF_LEN) :
    feedChunk ⟨file, b, tr⟩ c = ⟨file, b ++ c, tr⟩ := by
  rw [feedChunk]
  simp only [processLines_no_nl file (b ++ c) tr h]
  simp only [if_neg (Nat.not_le.mpr hlen)]

theorem record_shape {r : List Byte} (h : isRecord r = true) :
    ∃ s, r = s ++ [NL] ∧ NL ∉ s := by
  simp only [isRecord, Bool.and_eq_true, decide_eq_true_eq, Bool.not_eq_true',
    decide_eq_false_iff_not] at h
  obtain ⟨⟨⟨hne, hlast⟩, hmem⟩, _⟩ := h
  refine ⟨r.dropLast, ?_, hmem⟩
  have hgl : r.getLast hne = NL := by
    rw [List.getLast?_eq_getLast r hne] at hlast
    exact Option.some.inj hlast
  conv_lhs => rw [← List.dropLast_append_getLast hne, hgl]

theorem runChunks_nil (st : ConnState) : runChunks st [] = st := rfl

theorem runChunks_cons (st : ConnState) (c : List Byte) (cs : List (List Byte)) :
    runChunks st (c :: cs) = runChunks (feedChunk st c) cs := rfl

theorem runChunks_records : ∀ (rs : List (List Byte)) (file : List Byte) (tr : List Event),
    (∀ r ∈ rs, isRecord r = true) →
    runChunks ⟨file, [], tr⟩ rs = ⟨file ++ rs.flatten, [], tr ++ recEvents file rs⟩ := by
  intro rs
  induction rs with
  | nil => intro file tr _; simp [runChunks, recEvents]
  | cons r rs ih =>
    intro file tr h
    obtain ⟨s, hr, hs⟩ := record_shape (h r (List.mem_cons_self r rs))
    subst hr
    rw [runChunks_cons, feedChunk_record file tr s hs,
        ih _ _ (fun r hr => h r (by simp [hr]))]
    simp [recEvents, List.append_assoc]

theorem echoesOf_recEvents_cons (file r : List Byte) (rs : List (List Byte)) :
    echoesOf (recEvents file (r :: rs)) = (file ++ r) :: echoesOf (recEvents (file ++ r) rs) := by
  simp [recEvents, echoesOf]

theorem recEvents_echo_get : ∀ (rs : List (List Byte)) (file : List Byte) (k : Nat),
    k < rs.length →
    (echoesOf (recEvents file rs))[k]? = some (file ++ (rs.take (k + 1)).flatten) := by
  intro rs
  induction rs with
  | nil => intro file k h; simp at h
  | cons r rs ih =>
    intro file k h
    rw [echoesOf_recEvents_cons]
    cases k with
    | zero => simp
    | succ k =>
      have hk : k < rs.length := by simpa using h
      rw [List.getElem?_cons_succ, ih (file ++ r) k hk]
      simp [List.append_assoc]

/-- C1: on one connection, with the data file initially holding `file0` and
`N` newline-terminated records arriving one per `recv`, the echo transmitted
after the `k+1`-st record is byte-exactly the full cumulative file content
from offset 0: `file0` followed by the concatenation of records `1..k+1` in
arrival order (lines 340-357 of `src/server/aesdsocket.c`; with `file0 = []`
this is exactly the concatenation of records `1..k+1`). -/
theorem nth_echo_is_cumulative_content (file0 : List Byte) (rs : List (List Byte))
    (hrec : ∀ r ∈ rs, isRecord r = true) (k : Nat) (hk : k < rs.length) :
    (echoesOf (runChunks ⟨file0, [], []⟩ rs).trace)[k]? =
      some (file0 ++ (rs.take (k + 1)).flatten) := by
  rw [runChunks_records rs file0 [] hrec]
  simpa using recEvents_echo_get rs file0 k hk

/-- Witness for C1: records `"h\n"`, `"w\n"`; the second echo is `"h\nw\n"`. -/
theorem nth_echo_is_cumulative_content_w :
    isRecord [104, 10] = true ∧ isRecord [119, 10] = true ∧ 1 < 2 ∧
    (echoesOf (runChunks ⟨[], [], []⟩ [[104, 10], [119, 10]]).trace)[1]? =
      some [104, 10, 119, 10] := by
  refine ⟨by decide, by decide, by decide, ?_⟩
  have h := nth_echo_is_cumulative_content [] [[104, 10], [119, 10]] (by decide) 1 (by decide)
  simpa using h

end AesdSocket

namespace AesdSocket

theorem flatten_ne_nil_of_head {cs : List (List Byte)} (hne : cs ≠ [])
    (hall : ∀ c ∈ cs, c ≠ []) : cs.flatten ≠ [] := by
  cases cs with
  | nil => exact absurd rfl hne
  | cons c cs =>
    have hc : c ≠ [] := hall c (List.mem_cons_self c cs)
    simp [List.flatten, hc]

theorem runChunks_single_record : ∀ (cs : List (List Byte)), ∀ (b s file : List Byte),
    ∀ (tr : List Event),
    cs ≠ [] → (∀ c ∈ cs, c ≠ []) → b ++ cs.flatten = s ++ [NL] → NL ∉ s →
    s.length + 1 ≤ MAX_RECV_BUF_LEN →
    runChunks ⟨file, b, tr⟩ cs =
      ⟨file ++ (s ++ [NL]), [],
        tr ++ [Event.recordAppend (s ++ [NL]), Event.echo (file ++ (s ++ [NL]))]⟩ := by
  intro cs
  induction cs with
  | nil => intro b s file tr hne _ _ _ _; exact absurd rfl hne
  | cons c cs ih =>
    intro b s file tr _ hall hcat hs hlen
    by_cases hcs : cs = []
    · subst hcs
      have hbc : b ++ c = s ++ [NL] := by simpa using hcat
      rw [runChunks_cons, feedChunk_completes file b c tr s hbc hs, runChunks_nil]
    · have hfl : cs.flatten ≠ [] :=
        flatten_ne_nil_of_head hcs (fun x hx => hall x (by simp [hx]))
      have hcat' : (b ++ c) ++ cs.flatten = s ++ [NL] := by
        simpa [List.append_assoc] using hcat
      have hlen_bc : (b ++ c).length ≤ s.length := by
        have h1 := congrArg List.length hcat'
        simp only [List.length_append, List.length_singleton] at h1
        have h2 : 0 < cs.flatten.length := List.length_pos.mpr hfl
        simp only [List.length_append]
        omega
      have hpref : b ++ c = s.take (b ++ c).length := by
        have h1 : b ++ c = ((b ++ c) ++ cs.flatten).take (b ++ c).length := by
          rw [List.take_left]
        rw [hcat'] at h1
        rwa [List.take_append_of_le_length hlen_bc] at h1
      have hmem : NL ∉ b ++ c := by
        rw [hpref]
        exact fun hm => hs (List.take_subset _ _ hm)
      have hlt : (b ++ c).length < MAX_RECV_BUF_LEN := by omega
      rw [runChunks_cons, feedChunk_no_nl file b c tr hmem hlt]
      exact ih (b ++ c) s file tr hcs (fun x hx => hall x (by simp [hx])) hcat' hs hlen

/-- C2: a single newline-terminated record `s ++ [NL]` whose bytes arrive
partitioned across an arbitrary sequence of `recv` chunks (each nonempty,
total length at most the buffer capacity) is extracted by the framing loop
(lines 340-357) as exactly one completed record equal to the concatenation of
the chunks, newline included: the run appends exactly the record to the file,
empties the buffer, and produces exactly one record event and its echo. -/
theorem framer_single_record (file0 s : List Byte) (cs : List (List Byte))
    (hne : cs ≠ []) (hall : ∀ c ∈ cs, c ≠ [])
    (hcat : cs.flatten = s ++ [NL]) (hs : NL ∉ s)
    (hlen : s.length + 1 ≤ MAX_RECV_BUF_LEN) :
    runChunks ⟨file0, [], []⟩ cs =
      ⟨file0 ++ (s ++ [NL]), [],
        [Event.recordAppend (s ++ [NL]), Event.echo (file0 ++ (s ++ [NL]))]⟩ := by
  have h := runChunks_single_record cs [] s file0 [] hne hall (by simpa using hcat) hs hlen
  simpa using h

/-- Witness for C2: the record `"hi\n"` split across chunks `"h"`, `"i"`,
`"\n"` yields exactly one completed record `"hi\n"` and one echo. -/
theorem framer_single_record_w :
    ([[104], [105], [10]] : List (List Byte)) ≠ [] ∧
    ([104] : List Byte) ≠ [] ∧ ([105] : List Byte) ≠ [] ∧ ([10] : List Byte) ≠ [] ∧
    ([[104], [105], [10]] : List (List Byte)).flatten = [104, 105] ++ [NL] ∧
    NL ∉ ([104, 105] : List Byte) ∧
    runChunks ⟨[], [], []⟩ [[104], [105], [10]] =
      ⟨[104, 105] ++ [NL], [],
        [Event.recordAppend ([104, 105] ++ [NL]),
         Event.echo ([104, 105] ++ [NL])]⟩ := by
  refine ⟨by decide, by decide, by decide, by decide, by decide, by decide, ?_⟩
  have h := framer_single_record [] [104, 105] [[104], [105], [10]]
    (by decide) (by decide) (by decide) (by decide) (by decide)
  simpa using h

/-- C6: when the pending bytes contain no newline and reach the fixed buffer
capacity, the whole pending content is written to the store as a forced
flush, the pending buffer is emptied, and no echo event is produced for that
flush (lines 358-362). -/
theorem saturation_flush_no_echo (st : ConnState) (chunk : List Byte)
    (hnl : NL ∉ st.buf ++ chunk)
    (hlen : MAX_RECV_BUF_LEN ≤ (st.buf ++ chunk).length) :
    feedChunk st chunk =
      ⟨st.file ++ (st.buf ++ chunk), [],
        st.trace ++ [Event.satAppend (st.buf ++ chunk)]⟩ := by
  rw [feedChunk]
  simp only [processLines_no_nl st.file (st.buf ++ chunk) st.trace hnl]
  simp only [if_pos hlen]

/-- Witness for C6: 4096 bytes `'a'` with no newline saturate the buffer and
are flushed with no echo. -/
theorem saturation_flush_no_echo_w :
    NL ∉ ([] : List Byte) ++ List.replicate 4096 97 ∧
    MAX_RECV_BUF_LEN ≤ (([] : List Byte) ++ List.replicate 4096 97).length ∧
    feedChunk ⟨[], [], []⟩ (List.replicate 4096 97) =
      ⟨[] ++ ([] ++ List.replicate 4096 97), [],
        [] ++ [Event.satAppend ([] ++ List.replicate 4096 97)]⟩ := by
  have h1 : NL ∉ ([] : List Byte) ++ List.replicate 4096 97 := by
    simp only [List.nil_append, List.mem_replicate]
    decide
  have h2 : MAX_RECV_BUF_LEN ≤ (([] : List Byte) ++ List.replicate 4096 97).length := by
    simp only [List.nil_append, List.length_replicate]
    decide
  exact ⟨h1, h2, saturation_flush_no_echo ⟨[], [], []⟩ (List.replicate 4096 97) h1 h2⟩

end AesdSocket

namespace AesdSocket

/-- C5: for every record append followed by an echo, all bytes appended to
the store — the prior stdio-buffered bytes and the just-appended record —
are flushed and synced to storage before the echo reads the file content,
and the transmitted bytes are exactly that fully-durable content
(`fwrite` at line 349/365 followed by `send_file_back`, whose `fflush`
(line 173) and `fsync` (line 179) precede the `rewind`/`fread` loop that
feeds `sendall`). -/
theorem append_synced_before_echo (s : Store) (bytes : List Byte) :
    send_file_back (fwriteStore s bytes) =
      (⟨(fwriteStore s bytes).content, [], []⟩, (fwriteStore s bytes).content) := by
  simp [send_file_back, fwriteStore, fflushStore, fsyncStore, Store.content,
    List.append_assoc]

theorem sendallLoop_spec : ∀ (oracle : List SendRes) (buf : List Byte) (offset : Nat),
    oracleValid oracle (buf.length - offset) = true →
    (∃ rest, (sendallLoop buf oracle offset).1 ++ rest = buf.drop offset)
    ∧ ((sendallLoop buf oracle offset).2 = some 0 →
        (sendallLoop buf oracle offset).1 = buf.drop offset)
    ∧ ((sendallLoop buf oracle offset).2 = some (-1) → SendRes.err ∈ oracle) := by
  intro oracle
  induction oracle with
  | nil =>
    intro buf offset _
    by_cases h : offset < buf.length
    · refine ⟨⟨buf.drop offset, by simp [sendallLoop, h]⟩, ?_, ?_⟩
      · intro h0; simp [sendallLoop, h] at h0
      · intro h0; simp [sendallLoop, h] at h0
    · have hd : buf.drop offset = [] := List.drop_eq_nil_of_le (by omega)
      refine ⟨⟨[], by simp [sendallLoop, h, hd]⟩, ?_, ?_⟩
      · intro _; simp [sendallLoop, h, hd]
      · intro h0; simp [sendallLoop, h] at h0
  | cons r rest ih =>
    intro buf offset hv
    by_cases h : offset < buf.length
    · cases r with
      | err =>
        refine ⟨⟨buf.drop offset, by simp [sendallLoop, h]⟩, ?_, ?_⟩
        · intro h0; simp [sendallLoop, h] at h0
        · intro _; exact List.mem_cons_self _ _
      | ok n =>
        by_cases hn : n = 0
        · subst hn
          have hv' : oracleValid rest (buf.length - offset) = true := by
            simpa [oracleValid] using hv
          have hih := ih buf offset hv'
          have heq : sendallLoop buf (SendRes.ok 0 :: rest) offset =
              sendallLoop buf rest offset := by
            simp [sendallLoop, h]
          rw [heq]
          exact ⟨hih.1, hih.2.1, fun h0 => List.mem_cons_of_mem _ (hih.2.2 h0)⟩
        · have hvparts : n ≤ buf.length - offset
              ∧ oracleValid rest (buf.length - offset - n) = true := by
            simpa [oracleValid, Bool.and_eq_true, decide_eq_true_eq] using hv
          have hv' : oracleValid rest (buf.length - (offset + n)) = true := by
            have := hvparts.2
            have harith : buf.length - offset - n = buf.length - (offset + n) := by omega
            rwa [harith] at this
          have hih := ih buf (offset + n) hv'
          have hsplit : (buf.drop offset).take n ++ buf.drop (offset + n) =
              buf.drop offset := by
            rw [show buf.drop (offset + n) = (buf.drop offset).drop n by
              rw [List.drop_drop]]
            exact List.take_append_drop n (buf.drop offset)
          have heq : sendallLoop buf (SendRes.ok n :: rest) offset =
              ((buf.drop offset).take n ++ (sendallLoop buf rest (offset + n)).1,
                (sendallLoop buf rest (offset + n)).2) := by
            simp [sendallLoop, h, hn]
          rw [heq]
          refine ⟨?_, ?_, ?_⟩
          · obtain ⟨r2, hr2⟩ := hih.1
            exact ⟨r2, by rw [List.append_assoc, hr2, hsplit]⟩
          · intro h0
            simp only at h0
            rw [hih.2.1 h0, hsplit]
          · intro h0
            exact List.mem_cons_of_mem _ (hih.2.2 h0)
    · have hd : buf.drop offset = [] :=
        List.drop_eq_nil_of_le (show buf.length ≤ offset by omega)
      refine ⟨⟨[], by simp [sendallLoop, h, hd]⟩, ?_, ?_⟩
      · intro _
        simp [sendallLoop, h, hd]
      · intro h0; simp [sendallLoop, h] at h0

/-- C9: for every buffer and every valid sequence of `send` results,
`sendall` (lines 125-155) transmits a prefix of the buffer in order, each
retry starting at the first unsent byte; when it returns 0 exactly the whole
buffer has been transmitted, and it returns -1 exactly by propagating a
`send` error. -/
theorem sendall_spec (oracle : List SendRes) (buf : List Byte)
    (hv : oracleValid oracle buf.length = true) :
    (∃ rest, (sendall oracle buf).1 ++ rest = buf)
    ∧ ((sendall oracle buf).2 = some 0 → (sendall oracle buf).1 = buf)
    ∧ ((sendall oracle buf).2 = some (-1) → SendRes.err ∈ oracle) := by
  have h := sendallLoop_spec oracle buf 0 (by simpa using hv)
  simpa [sendall] using h

/-- Witness for C9: sends accepting 2, 0, then 1 bytes of `[1,2,3]` finish
with return 0 and exactly the whole buffer transmitted in order. -/
theorem sendall_spec_w :
    oracleValid [SendRes.ok 2, SendRes.ok 0, SendRes.ok 1] ([1, 2, 3] : List Byte).length = true
    ∧ (sendall [SendRes.ok 2, SendRes.ok 0, SendRes.ok 1] [1, 2, 3]).2 = some 0
    ∧ (sendall [SendRes.ok 2, SendRes.ok 0, SendRes.ok 1] [1, 2, 3]).1 = [1, 2, 3] := by
  refine ⟨by decide, by decide, ?_⟩
  exact (sendall_spec [SendRes.ok 2, SendRes.ok 0, SendRes.ok 1] [1, 2, 3]
    (by decide)).2.1 (by decide)

theorem processLinesAux_buf_le : ∀ (fuel : Nat) (file buf : List Byte) (tr : List Event),
    (processLinesAux fuel file buf tr).2.1.length ≤ buf.length := by
  intro fuel
  induction fuel with
  | zero => intro file buf tr; simp [processLinesAux]
  | succ n ih =>
    intro file buf tr
    cases hm : memchrIdx buf with
    | none => simp [processLinesAux, hm]
    | some i =>
      rw [processLinesAux_step n file buf tr i hm]
      exact le_trans (ih _ _ _) (by simp)

theorem feedChunk_buf_lt (st : ConnState) (c : List Byte) :
    (feedChunk st c).buf.length < MAX_RECV_BUF_LEN := by
  rw [feedChunk]
  have hle := processLinesAux_buf_le ((st.buf ++ c).count NL) st.file (st.buf ++ c) st.trace
  rcases hp : processLines st.file (st.buf ++ c) st.trace with ⟨file, buf, tr⟩
  rw [processLines] at hp
  rw [hp] at hle
  simp only at hle
  by_cases hs : MAX_RECV_BUF_LEN ≤ buf.length
  · simp only [if_pos hs]
    simp [MAX_RECV_BUF_LEN]
  · simp only [if_neg hs]
    omega

theorem connStates_inv : ∀ (chunks : List (List Byte)) (st : ConnState),
    st.buf.length < MAX_RECV_BUF_LEN →
    ∀ s ∈ connStates st chunks, s.buf.length < MAX_RECV_BUF_LEN := by
  intro chunks
  induction chunks with
  | nil => intro st h s hs; simp [connStates] at hs; simpa [hs] using h
  | cons c cs ih =>
    intro st h s hs
    simp only [connStates, List.mem_cons] at hs
    rcases hs with rfl | hs
    · exact h
    · exact ih (feedChunk st c) (feedChunk_buf_lt st c) s hs

/-- C10: at every `recv` call of the receive loop (line 340) the pending
byte count `total_received` satisfies `0 <= total_received < MAX_RECV_BUF_LEN`,
so the requested length `MAX_RECV_BUF_LEN - total_received` is positive, and
with any number of returned bytes up to the request the terminating NUL at
`receive_buffer[total_received]` lands at an index at most `MAX_RECV_BUF_LEN`,
inside the `MAX_RECV_BUF_LEN + 1`-byte array (line 305). -/
theorem recv_call_in_bounds (file0 : List Byte) (chunks : List (List Byte))
    (hv : chunksValid ⟨file0, [], []⟩ chunks = true) :
    ∀ s ∈ connStates ⟨file0, [], []⟩ chunks,
      s.buf.length < MAX_RECV_BUF_LEN ∧ 0 < MAX_RECV_BUF_LEN - s.buf.length := by
  intro s hs
  have h := connStates_inv chunks ⟨file0, [], []⟩ (by simp [MAX_RECV_BUF_LEN]) s hs
  exact ⟨h, by omega⟩

/-- Witness for C10: a valid single-chunk run; the state after the chunk is
within bounds. -/
theorem recv_call_in_bounds_w :
    chunksValid ⟨[], [], []⟩ [[97, 10]] = true
    ∧ feedChunk ⟨[], [], []⟩ [97, 10] ∈ connStates ⟨[], [], []⟩ [[97, 10]]
    ∧ (feedChunk ⟨[], [], []⟩ [97, 10]).buf.length < MAX_RECV_BUF_LEN
    ∧ 0 < MAX_RECV_BUF_LEN - (feedChunk ⟨[], [], []⟩ [97, 10]).buf.length := by
  refine ⟨by decide, by decide, ?_⟩
  have h := recv_call_in_bounds [] [[97, 10]] (by decide)
    (feedChunk ⟨[], [], []⟩ [97, 10]) (by decide)
  exact h

end AesdSocket

namespace AesdSocket

/-- Counterexample to C3 as stated: a connection that sends the single byte
`'a'` with no newline and then closes triggers, at lines 364-371, an append
of the unterminated remainder followed by an echo — an echo that does not
follow a newline-terminated record's append. -/
theorem echo_not_only_after_record_cex :
    echoOnlyAfterRecord (runConn [] [[97]]).trace = false := by decide

theorem echoChainAux_append (p : Event → Bool) :
    ∀ (l1 : List Event) (a : Event) (l2 : List Event),
    echoChainAux p a (l1 ++ l2) =
      (echoChainAux p a l1 && echoChainAux p (lastEv a l1) l2) := by
  intro l1
  induction l1 with
  | nil => intro a l2; simp [echoChainAux, lastEv]
  | cons e l1 ih =>
    intro a l2
    show ((!(isEchoEv e) || p a) && echoChainAux p e (l1 ++ l2)) =
      (((!(isEchoEv e) || p a) && echoChainAux p e l1)
        && echoChainAux p (lastEv a (e :: l1)) l2)
    rw [show lastEv a (e :: l1) = lastEv e l1 from rfl, ih e l2, Bool.and_assoc]

theorem eoat_processLinesAux : ∀ (fuel : Nat) (file buf : List Byte) (tr : List Event),
    echoOnlyAfterTrigger tr = true →
    echoOnlyAfterTrigger (processLinesAux fuel file buf tr).2.2 = true := by
  intro fuel
  induction fuel with
  | zero => intro file buf tr h; simpa [processLinesAux] using h
  | succ n ih =>
    intro file buf tr h
    cases hm : memchrIdx buf with
    | none => simpa [processLinesAux, hm] using h
    | some i =>
      rw [processLinesAux_step n file buf tr i hm]
      apply ih
      unfold echoOnlyAfterTrigger at h ⊢
      rw [echoChainAux_append]
      simp [h, echoChainAux, isEchoEv, isEchoTriggerEv]

theorem eoat_feedChunk (st : ConnState) (c : List Byte)
    (h : echoOnlyAfterTrigger st.trace = true) :
    echoOnlyAfterTrigger (feedChunk st c).trace = true := by
  rw [feedChunk]
  have h1 := eoat_processLinesAux ((st.buf ++ c).count NL) st.file (st.buf ++ c) st.trace h
  rcases hp : processLines st.file (st.buf ++ c) st.trace with ⟨file, buf, tr⟩
  rw [processLines] at hp
  rw [hp] at h1
  simp only at h1
  by_cases hs : MAX_RECV_BUF_LEN ≤ buf.length
  · simp only [if_pos hs]
    unfold echoOnlyAfterTrigger at h1 ⊢
    rw [echoChainAux_append]
    simp [h1, echoChainAux, isEchoEv]
  · simpa [if_neg hs] using h1

theorem eoat_runChunks : ∀ (chunks : List (List Byte)) (st : ConnState),
    echoOnlyAfterTrigger st.trace = true →
    echoOnlyAfterTrigger (runChunks st chunks).trace = true := by
  intro chunks
  induction chunks with
  | nil => intro st h; simpa [runChunks] using h
  | cons c cs ih =>
    intro st h
    rw [runChunks_cons]
    exact ih (feedChunk st c) (eoat_feedChunk st c h)

/-- C3 amended: in every error-free connection run, each echo is immediately
preceded by an append that triggers it — either a newline-terminated record
append (lines 347-357) or the end-of-connection append of a nonempty
unterminated remainder (lines 364-371).  In particular a forced
buffer-saturation flush (lines 358-362) is never followed by an echo. -/
theorem echo_only_after_record_or_tail (file0 : List Byte) (chunks : List (List Byte)) :
    echoOnlyAfterTrigger (runConn file0 chunks).trace = true := by
  rw [runConn]
  have h := eoat_runChunks chunks ⟨file0, [], []⟩ (by rfl)
  rw [finishConn]
  by_cases hb : 0 < (runChunks ⟨file0, [], []⟩ chunks).buf.length
  · simp only [if_pos hb]
    unfold echoOnlyAfterTrigger at h ⊢
    rw [echoChainAux_append]
    simp [h, echoChainAux, isEchoEv, isEchoTriggerEv]
  · simpa [if_neg hb] using h

end AesdSocket

namespace AesdSocket

/-- Counterexample to the C8 clause that the cancellation flag is read by the
receive loop on every iteration: with `exit_flag` set, the receive loop's
guard (line 340) still continues whenever `recv` returned positive bytes —
it never consults the flag — whereas the accept loop's guard (line 310)
halts. -/
theorem recv_loop_ignores_flag_cex :
    recvLoopContinues true 1 = true ∧ acceptLoopContinues true = false := by decide

theorem foldl_exitFlagStep_true : ∀ (l : List PStep), l.foldl exitFlagStep true = true := by
  intro l
  induction l with
  | nil => rfl
  | cons e l ih =>
    cases e <;> simpa [exitFlagStep] using ih

/-- C8 amended: `exit_flag` is initialized false at process start (line 38),
set to true by the signal handler on SIGINT/SIGTERM (line 93), never reset by
any later program step, and read by the accept loop's guard on every
iteration (line 310); the receive loop's guard (line 340), however, does not
read the flag — its continuation depends only on the `recv` result (the
handler instead unblocks `recv` by shutting the sockets down,
lines 99-109). -/
theorem exit_flag_lifecycle :
    exit_flag_init = false
    ∧ (∀ pre : List PStep, exitFlagAfter (pre ++ [PStep.signalStep]) = true)
    ∧ (∀ (pre post : List PStep), exitFlagAfter (pre ++ PStep.signalStep :: post) = true)
    ∧ (∀ f : Bool, acceptLoopContinues f = !f)
    ∧ (∀ (f1 f2 : Bool) (m : Int), recvLoopContinues f1 m = recvLoopContinues f2 m) := by
  refine ⟨rfl, ?_, ?_, fun f => rfl, fun f1 f2 m => rfl⟩
  · intro pre
    simp [exitFlagAfter, List.foldl_append, exitFlagStep]
  · intro pre post
    simp only [exitFlagAfter, List.foldl_append, List.foldl_cons]
    rw [show exitFlagStep (List.foldl exitFlagStep exit_flag_init pre) PStep.signalStep
        = true from rfl]
    exact foldl_exitFlagStep_true post

end AesdSocket

namespace AesdSocket

/-- Counterexample to C4 as stated: connection 1 sends an unterminated byte
`'a'` and closes; the trailing-flush echo fails (`send_file_back < 0` at
line 366), and the `break` at line 368 exits the accept loop, so a waiting
second connection is never handled: the server loop handles 1 of the 2
connections instead of aborting only the failing connection and continuing. -/
theorem conn_error_terminates_accept_loop_cex :
    (serverLoop [] [⟨[[97]], [OpResult.fail], []⟩, ⟨[[104, 10]], [], []⟩]).2 = 1
    ∧ (runEConn [] ⟨[[97]], [OpResult.fail], []⟩).2 = true := by decide

theorem eProcessLines_no_tailfail : ∀ (fuel : Nat) (st : EConn),
    EEvent.echoTailFail ∉ st.events →
    EEvent.echoTailFail ∉ (eProcessLines fuel st).events := by
  intro fuel
  induction fuel with
  | zero => intro st h; simpa [eProcessLines] using h
  | succ n ih =>
    intro st h
    cases hm : memchrIdx st.buf with
    | none => simpa [eProcessLines, hm] using h
    | some i =>
      rcases hw : nextRes st.writes with ⟨wr, ws⟩
      rcases hs : nextRes st.sends with ⟨sr, ss⟩
      cases sr with
      | ok =>
        simp only [eProcessLines, hm, hw, hs]
        apply ih
        intro hmem
        rcases List.mem_append.mp hmem with hm1 | hm2
        · exact h hm1
        · simp at hm2
      | fail =>
        simp only [eProcessLines, hm, hw, hs]
        intro hmem
        rcases List.mem_append.mp hmem with hm1 | hm2
        · exact h hm1
        · simp at hm2

theorem satStep_no_tailfail (st1 : EConn)
    (h1 : EEvent.echoTailFail ∉ st1.events) :
    EEvent.echoTailFail ∉ (satStep st1).events := by
  rw [satStep]
  by_cases hsat : MAX_RECV_BUF_LEN ≤ st1.buf.length
  · rcases hw : nextRes st1.writes with ⟨wr, ws⟩
    simp only [if_pos hsat, hw]
    intro hmem
    rcases List.mem_append.mp hmem with hm1 | hm2
    · exact h1 hm1
    · simp at hm2
  · simpa [if_neg hsat] using h1

theorem eFeedChunk_no_tailfail (st : EConn) (c : List Byte)
    (h : EEvent.echoTailFail ∉ st.events) :
    EEvent.echoTailFail ∉ (eFeedChunk st c).events := by
  rw [eFeedChunk]
  exact satStep_no_tailfail _ (eProcessLines_no_tailfail ((st.buf ++ c).count NL)
    ⟨st.file, st.buf ++ c, st.events, st.sends, st.writes⟩ h)

theorem runEChunks_no_tailfail : ∀ (chunks : List (List Byte)) (st : EConn),
    EEvent.echoTailFail ∉ st.events →
    EEvent.echoTailFail ∉ (chunks.foldl eFeedChunk st).events := by
  intro chunks
  induction chunks with
  | nil => intro st h; simpa using h
  | cons c cs ih =>
    intro st h
    rw [List.foldl_cons]
    exact ih (eFeedChunk st c) (eFeedChunk_no_tailfail st c h)

/-- C4 amended: a send failure while echoing a completed record (line 350)
only breaks out of the record-extraction loop — the connection stays open
and keeps receiving — while a send failure while echoing the
end-of-connection remainder executes the `break` of line 368, which
terminates the accept loop: the accept loop is terminated by a connection
error exactly when that connection's trailing-remainder echo failed. -/
theorem accept_break_iff_tail_echo_fail (file0 : List Byte) (c : ConnInput) :
    (runEConn file0 c).2 = true ↔
      EEvent.echoTailFail ∈ (runEConn file0 c).1.events := by
  rw [runEConn]
  have hno : EEvent.echoTailFail ∉
      ((c.chunks).foldl eFeedChunk ⟨file0, [], [], c.sends, c.writes⟩).events :=
    runEChunks_no_tailfail c.chunks _ (by simp)
  set st := (c.chunks).foldl eFeedChunk ⟨file0, [], [], c.sends, c.writes⟩ with hst
  rw [eFinish]
  by_cases hb : 0 < st.buf.length
  · rcases hw : nextRes st.writes with ⟨wr, ws⟩
    rcases hs : nextRes st.sends with ⟨sr, ss⟩
    cases sr with
    | ok =>
      simp only [if_pos hb, hw, hs]
      simp [List.mem_append, hno]
    | fail =>
      simp only [if_pos hb, hw, hs]
      simp [List.mem_append]
  · simp only [if_neg hb]
    simp [hno]

/-- Counterexample to C7 as stated: with records `"a\n"`, `"b\n"` and the
first `fwrite` reporting failure, the code (which discards `fwrite`'s return
value at line 349) goes on to echo and to process the second record
normally: the append failure does not propagate, does not abort the
connection's record processing, and is silently ignored. -/
theorem append_failure_ignored_cex :
    appendFailAborts
      (runEConn [] ⟨[[97, 10], [98, 10]], [], [OpResult.fail]⟩).1.events = false := by
  decide

theorem wrel_eProcessLines : ∀ (fuel : Nat) (a b : EConn), WRel a b →
    WRel (eProcessLines fuel a) (eProcessLines fuel b) := by
  intro fuel
  induction fuel with
  | zero => intro a b h; simpa [eProcessLines] using h
  | succ n ih =>
    intro a b h
    obtain ⟨hf, hb, he, hs⟩ := h
    cases hm : memchrIdx a.buf with
    | none =>
      have hmb : memchrIdx b.buf = none := by rw [← hb]; exact hm
      simp only [eProcessLines, hm, hmb]
      exact ⟨hf, hb, he, hs⟩
    | some i =>
      have hmb : memchrIdx b.buf = some i := by rw [← hb]; exact hm
      rcases hwa : nextRes a.writes with ⟨wr1, ws1⟩
      rcases hwb : nextRes b.writes with ⟨wr2, ws2⟩
      rcases hsa : nextRes a.sends with ⟨sr, ssa⟩
      have hsb : nextRes b.sends = (sr, ssa) := by rw [← hs]; exact hsa
      cases sr with
      | ok =>
        simp only [eProcessLines, hm, hmb, hwa, hwb, hsa, hsb]
        apply ih
        refine ⟨by rw [hf, hb], by rw [hb], ?_, rfl⟩
        simp [he, hf, hb, eraseWriteRes]
      | fail =>
        simp only [eProcessLines, hm, hmb, hwa, hwb, hsa, hsb]
        refine ⟨by rw [hf, hb], hb, ?_, rfl⟩
        simp [he, hf, hb, eraseWriteRes]

theorem wrel_satStep (a1 b1 : EConn) (h : WRel a1 b1) :
    WRel (satStep a1) (satStep b1) := by
  obtain ⟨hf1, hb1, he1, hs1⟩ := h
  rw [satStep, satStep]
  by_cases hsat : MAX_RECV_BUF_LEN ≤ a1.buf.length
  · have hsatb : MAX_RECV_BUF_LEN ≤ b1.buf.length := by rw [← hb1]; exact hsat
    rcases hw1 : nextRes a1.writes with ⟨wr1, ws1⟩
    rcases hw2 : nextRes b1.writes with ⟨wr2, ws2⟩
    simp only [if_pos hsat, if_pos hsatb, hw1, hw2]
    refine ⟨by rw [hf1, hb1], rfl, ?_, hs1⟩
    simp [he1, hb1, eraseWriteRes]
  · have hsatb : ¬ MAX_RECV_BUF_LEN ≤ b1.buf.length := by rw [← hb1]; exact hsat
    simp only [if_neg hsat, if_neg hsatb]
    exact ⟨hf1, hb1, he1, hs1⟩

theorem wrel_eFeedChunk (a b : EConn) (c : List Byte) (h : WRel a b) :
    WRel (eFeedChunk a c) (eFeedChunk b c) := by
  obtain ⟨hf, hb, he, hs⟩ := h
  rw [eFeedChunk, eFeedChunk,
    show (b.buf ++ c).count NL = (a.buf ++ c).count NL by rw [hb]]
  exact wrel_satStep _ _ (wrel_eProcessLines ((a.buf ++ c).count NL) _ _
    ⟨hf, by rw [hb], he, hs⟩)

theorem wrel_foldl : ∀ (chunks : List (List Byte)) (a b : EConn), WRel a b →
    WRel (chunks.foldl eFeedChunk a) (chunks.foldl eFeedChunk b) := by
  intro chunks
  induction chunks with
  | nil => intro a b h; simpa using h
  | cons c cs ih =>
    intro a b h
    rw [List.foldl_cons, List.foldl_cons]
    exact ih _ _ (wrel_eFeedChunk a b c h)

theorem wrel_eFinish (a b : EConn) (h : WRel a b) :
    (eFinish a).2 = (eFinish b).2 ∧ WRel (eFinish a).1 (eFinish b).1 := by
  obtain ⟨hf, hb, he, hs⟩ := h
  rw [eFinish, eFinish]
  by_cases hba : 0 < a.buf.length
  · have hbb : 0 < b.buf.length := by rw [← hb]; exact hba
    rcases hwa : nextRes a.writes with ⟨wr1, ws1⟩
    rcases hwb : nextRes b.writes with ⟨wr2, ws2⟩
    rcases hsa : nextRes a.sends with ⟨sr, ssa⟩
    have hsb : nextRes b.sends = (sr, ssa) := by rw [← hs]; exact hsa
    cases sr with
    | ok =>
      constructor
      · simp only [if_pos hba, if_pos hbb, hwa, hwb, hsa, hsb]
      · simp only [if_pos hba, if_pos hbb, hwa, hwb, hsa, hsb]
        refine ⟨by rw [hf, hb], rfl, ?_, rfl⟩
        simp [he, hf, hb, eraseWriteRes]
    | fail =>
      constructor
      · simp only [if_pos hba, if_pos hbb, hwa, hwb, hsa, hsb]
      · simp only [if_pos hba, if_pos hbb, hwa, hwb, hsa, hsb]
        refine ⟨by rw [hf, hb], hb, ?_, rfl⟩
        simp [he, hf, hb, eraseWriteRes]
  · have hbb : ¬ 0 < b.buf.length := by rw [← hb]; exact hba
    constructor
    · simp only [if_neg hba, if_neg hbb]
    · simp only [if_neg hba, if_neg hbb]
      exact ⟨hf, hb, he, hs⟩

/-- C7 amended: the results reported by `fwrite` are never consulted
(lines 349, 359, 365 discard them): replacing the whole sequence of `fwrite`
results by successes changes nothing the code can observe — not the file,
not the buffer, not whether the accept loop is broken, and not the event
sequence up to the recorded result values.  In particular no append failure
propagates to the caller or aborts the connection's record processing; the
server process survives, and the failure is silently ignored. -/
theorem fwrite_result_never_consulted (file0 : List Byte) (chunks : List (List Byte))
    (sends writes : List OpResult) :
    (runEConn file0 ⟨chunks, sends, writes⟩).2 = (runEConn file0 ⟨chunks, sends, []⟩).2
    ∧ (runEConn file0 ⟨chunks, sends, writes⟩).1.file
        = (runEConn file0 ⟨chunks, sends, []⟩).1.file
    ∧ (runEConn file0 ⟨chunks, sends, writes⟩).1.buf
        = (runEConn file0 ⟨chunks, sends, []⟩).1.buf
    ∧ (runEConn file0 ⟨chunks, sends, writes⟩).1.events.map eraseWriteRes
        = (runEConn file0 ⟨chunks, sends, []⟩).1.events.map eraseWriteRes := by
  have h0 : WRel (⟨file0, [], [], sends, writes⟩ : EConn) ⟨file0, [], [], sends, []⟩ :=
    ⟨rfl, rfl, rfl, rfl⟩
  have h1 := wrel_foldl chunks _ _ h0
  have h2 := wrel_eFinish _ _ h1
  exact ⟨h2.1, h2.2.1, h2.2.2.1, h2.2.2.2.1⟩

end AesdSocket

namespace AesdSocket

theorem memchrIdx_count_drop : ∀ (buf : List Byte) (i : Nat),
    memchrIdx buf = some i →
    buf.count NL = (buf.drop (i + 1)).count NL + 1 := by
  intro buf
  induction buf with
  | nil => intro i h; simp [memchrIdx] at h
  | cons b rest ih =>
    intro i h
    by_cases hb : b = NL
    · subst hb
      simp [memchrIdx] at h
      subst h
      simp [List.count_cons]
    · simp only [memchrIdx, if_neg hb, Option.map_eq_some'] at h
      obtain ⟨j, hj, rfl⟩ := h
      have hrec := ih j hj
      simp [List.count_cons, hb, List.drop_succ_cons, hrec]

theorem processLinesAux_fuel_exact : ∀ (fuel : Nat) (file buf : List Byte) (tr : List Event),
    buf.count NL ≤ fuel →
    processLinesAux fuel file buf tr = processLinesAux (buf.count NL) file buf tr := by
  intro fuel
  induction fuel with
  | zero =>
    intro file buf tr h
    have h0 : buf.count NL = 0 := Nat.le_zero.mp h
    rw [h0]
  | succ n ih =>
    intro file buf tr h
    cases hm : memchrIdx buf with
    | none =>
      rw [processLinesAux_none (n + 1) file buf tr hm,
          processLinesAux_none (buf.count NL) file buf tr hm]
    | some i =>
      have hc := memchrIdx_count_drop buf i hm
      rw [processLinesAux_step n file buf tr i hm, hc,
          processLinesAux_step ((buf.drop (i + 1)).count NL) file buf tr i hm]
      exact ih _ _ _ (by omega)

end AesdSocket
